import Mathlib

/-!
Verification of the text-rewrite engine of the `pretty-readme` crate
(`src/lib.rs`, function `docify`).

The core of `docify` is:
1. a regex replacement over the readme text with the pattern
   `r"(three backticks)(rust|rs)(\r\n|\r|\n)(.+?)(\r\n|\r|\n)(three backticks)"`
   compiled with `dot_matches_new_line(true)` and `case_insensitive(true)`,
   replaced globally (leftmost, non-overlapping, Perl-style leftmost-first
   preference: alternations try branches left to right, `.+?` is lazy) with
   `"(fence)$1$2$3$4$4# Ok::<(), Box<dyn std::error::Error>>(())$4(fence)"`;
2. a call to Rust `str::replace` substituting a literal target substring
   with a literal replacement substring.

Documents are modelled as `List Char`.  The matcher below is a direct
shallow embedding of the backtracking search the regex engine performs for
this one fixed pattern.
-/

namespace PrettyReadme

/-- The three-backtick fence delimiter appearing in the pattern. -/
def fence : List Char := ['`', '`', '`']

/-- The fixed marker line inserted by the replacement template
(`# Ok::<(), Box<dyn std::error::Error>>(())`). -/
def marker : List Char := "# Ok::<(), Box<dyn std::error::Error>>(())".toList

/-- Case-insensitive character comparison, as used by the regex engine for
the `(rust|rs)` alternation under `case_insensitive(true)`. -/
def charCI (p c : Char) : Bool := p.toLower == c.toLower

/-- Boolean test that `p` is a leading segment of `s` (literal matching). -/
def leadsWith : List Char → List Char → Bool
  | [], _ => true
  | _ :: _, [] => false
  | p :: ps, c :: cs => p == c && leadsWith ps cs

/-- Boolean test that `pat` occurs as a contiguous segment of `s`. -/
def occursIn (pat : List Char) : List Char → Bool
  | [] => leadsWith pat []
  | c :: cs => leadsWith pat (c :: cs) || occursIn pat cs

/-- The first alternation branch of the language-tag group. -/
def tagRust : List Char := ['r', 'u', 's', 't']

/-- The second alternation branch of the language-tag group. -/
def tagRs : List Char := ['r', 's']

/-- Case-insensitively consume the literal `p` from the front of `s`,
returning the consumed original characters and the remainder. -/
def ciTake : List Char → List Char → Option (List Char × List Char)
  | [], s => some ([], s)
  | _ :: _, [] => none
  | p :: ps, c :: cs =>
    if charCI p c then
      match ciTake ps cs with
      | some (tk, rest) => some (c :: tk, rest)
      | none => none
    else none

/-- Match the `(rust|rs)` group: try `rust` first, then `rs`
(leftmost-first alternation preference). -/
def matchTag (s : List Char) : Option (List Char × List Char) :=
  match ciTake tagRust s with
  | some p => some p
  | none => ciTake tagRs s

/-- The candidates the engine tries, in preference order, for the
line-break group `(\r\n|\r|\n)` at the head of `s`; each candidate is the
captured break together with the remainder. -/
def nlOptions (s : List Char) : List (List Char × List Char) :=
  match s with
  | a :: b :: rest =>
    if a = '\r' ∧ b = '\n' then [(['\r', '\n'], rest), (['\r'], b :: rest)]
    else if a = '\r' then [(['\r'], b :: rest)]
    else if a = '\n' then [(['\n'], b :: rest)]
    else []
  | [a] =>
    if a = '\r' then [(['\r'], [])]
    else if a = '\n' then [(['\n'], [])]
    else []
  | [] => []

/-- Match the tail `(\r\n|\r|\n)` followed by the closing fence at the head
of `s`.  The three break alternatives are mutually exclusive here, so the
alternation is deterministic. -/
def nlFence (s : List Char) : Option (List Char × List Char) :=
  if leadsWith (['\r', '\n'] ++ fence) s then some (['\r', '\n'], s.drop 5)
  else if leadsWith (['\r'] ++ fence) s then some (['\r'], s.drop 4)
  else if leadsWith (['\n'] ++ fence) s then some (['\n'], s.drop 4)
  else none

/-- Lazy search for the body group `(.+?)`: the shortest non-empty span of
characters after which `(\r\n|\r|\n)(fence)` matches.  Returns the body,
the captured closing break, and the remainder after the closing fence. -/
def findSplit : List Char → Option (List Char × List Char × List Char)
  | [] => none
  | c :: rest =>
    match nlFence rest with
    | some (nl, after) => some ([c], nl, after)
    | none =>
      match findSplit rest with
      | some (body, nl, after) => some (c :: body, nl, after)
      | none => none

/-- The captures of one match of the codeblock pattern: `g1` the language
tag, `g2` the break after the opening fence, `g3` the body, `g4` the break
before the closing fence, and `rest` the text after the match. -/
structure MatchData where
  g1 : List Char
  g2 : List Char
  g3 : List Char
  g4 : List Char
  rest : List Char
deriving DecidableEq, Repr

/-- Try the line-break candidates for group 2 in preference order; for each
one, search for a lazy body split.  This is the backtracking the engine
performs after the tag group has matched. -/
def tryNL (tag : List Char) : List (List Char × List Char) → Option MatchData
  | [] => none
  | (nl1, s3) :: more =>
    match findSplit s3 with
    | some (body, nl2, rest) => some ⟨tag, nl1, body, nl2, rest⟩
    | none => tryNL tag more

/-- Attempt to match the full codeblock pattern at the start of `s`. -/
def matchAt (s : List Char) : Option MatchData :=
  match s with
  | a :: b :: c :: s1 =>
    if a = '`' ∧ b = '`' ∧ c = '`' then
      match matchTag s1 with
      | some (tag, s2) => tryNL tag (nlOptions s2)
      | none => none
    else none
  | _ => none

/-- The text substituted for one match, following the template
`"(fence)$1$2$3$4$4# Ok::<(), Box<dyn std::error::Error>>(())$4(fence)"`. -/
def replacement (m : MatchData) : List Char :=
  fence ++ m.g1 ++ m.g2 ++ m.g3 ++ m.g4 ++ m.g4 ++ marker ++ m.g4 ++ fence

/-- Fuelled global replacement: scan left to right, replace each leftmost
match and continue after it (non-overlapping), copying non-matching
characters verbatim.  The fuel only serves termination; `s.length` fuel is
always sufficient. -/
def replaceAllF : Nat → List Char → List Char
  | 0, s => s
  | _ + 1, [] => []
  | f + 1, c :: cs =>
    match matchAt (c :: cs) with
    | some m => replacement m ++ replaceAllF f m.rest
    | none => c :: replaceAllF f cs

/-- The codeblock-augmentation pass of `docify`: `re.replace_all` with the
fixed pattern and template. -/
def replaceAll (s : List Char) : List Char := replaceAllF s.length s

/-- Rust `str::replace` with an empty pattern: the pattern matches at every
character boundary, so the replacement is interleaved before, between and
after all characters. -/
def emptyRep (r : List Char) : List Char → List Char
  | [] => r
  | c :: cs => r ++ c :: emptyRep r cs

/-- Fuelled non-empty-pattern replacement: at each position, if the target
leads the remaining text, emit the replacement and skip the target,
otherwise copy one character. -/
def repNEF : Nat → List Char → List Char → List Char → List Char
  | 0, s, _, _ => s
  | _ + 1, [], _, _ => []
  | f + 1, c :: cs, t, r =>
    if leadsWith t (c :: cs) then r ++ repNEF f ((c :: cs).drop t.length) t r
    else c :: repNEF f cs t r

/-- Rust `str::replace`: global, literal, non-overlapping, left to right. -/
def strReplace (s t r : List Char) : List Char :=
  match t with
  | [] => emptyRep r s
  | _ :: _ => repNEF s.length s t r

/-- The core transformation of `docify` once the readme text has been read:
augment the rust codeblocks, then substitute the docs URL. -/
def docify (doc target repl : List Char) : List Char :=
  strReplace (replaceAll doc) target repl

/-- Modelled from the spec: the pattern-matching engine initialization
(`RegexBuilder::new(..).build()`, whose implementation lives in the regex
crate, outside this repository) accepts a pattern unless it is
syntactically malformed.  This checker captures the syntactic
well-formedness conditions relevant to the fixed pattern: balanced groups,
and quantifiers (`+`, `*`, `?`) only after a quantifiable atom, with a
single lazy modifier allowed after a quantifier.  `d` is the open-group
depth; `st` is `0` after an alternation bar or opening of a group, `1`
after an atom, `2` after a quantifier. -/
def patOk : List Char → Nat → Nat → Bool
  | [], d, _ => decide (d = 0)
  | '(' :: rest, d, _ => patOk rest (d + 1) 0
  | ')' :: rest, d, _ =>
    (match d with
     | 0 => false
     | e + 1 => patOk rest e 1)
  | '|' :: rest, d, _ => patOk rest d 0
  | '+' :: rest, d, st => decide (st = 1) && patOk rest d 2
  | '*' :: rest, d, st => decide (st = 1) && patOk rest d 2
  | '?' :: rest, d, st => decide (st ≠ 0) && patOk rest d 0
  | '\\' :: _ :: rest, d, _ => patOk rest d 1
  | _ :: rest, d, _ => patOk rest d 1

/-- The hard-coded pattern string passed to `RegexBuilder::new` (a Rust raw
string, so `\r` and `\n` are two-character escape sequences). -/
def codeblockPat : List Char :=
  "```(rust|rs)(\\r\\n|\\r|\\n)(.+?)(\\r\\n|\\r|\\n)```".toList

/-- Whether building the codeblock regex succeeds. -/
def buildOk : Bool := patOk codeblockPat 0 0

/-- `docify` including the pattern-engine initialization step: `none`
models the `expect` panic on a construction failure. -/
def docifyChecked (doc target repl : List Char) : Option (List Char) :=
  if buildOk then some (docify doc target repl) else none

/-- `s` contains no backtick character. -/
def noTick (s : List Char) : Prop := ∀ c ∈ s, c ≠ '`'

/-- `s` contains no carriage return and no line feed. -/
def noNL (s : List Char) : Prop := ∀ c ∈ s, c ≠ '\r' ∧ c ≠ '\n'

/-- `tag` is one of the accepted rust-family language tags
(case-insensitive `rust` or `rs`). -/
def isTag (tag : List Char) : Prop :=
  tag.map Char.toLower = tagRust ∨ tag.map Char.toLower = tagRs

/-- `nl` is one of the three recognized line-break sequences. -/
def nlOk (nl : List Char) : Prop :=
  nl = ['\r', '\n'] ∨ nl = ['\r'] ∨ nl = ['\n']

/-- Every line break occurring in `s` is a full `\r\n` pair. -/
def crlfOnly : List Char → Bool
  | [] => true
  | '\r' :: '\n' :: rest => crlfOnly rest
  | '\r' :: _ => false
  | '\n' :: _ => false
  | _ :: rest => crlfOnly rest

instance (s : List Char) : Decidable (noTick s) :=
  List.decidableBAll _ s

instance (s : List Char) : Decidable (noNL s) :=
  List.decidableBAll _ s

instance (tag : List Char) : Decidable (isTag tag) :=
  inferInstanceAs (Decidable (tag.map Char.toLower = tagRust ∨
    tag.map Char.toLower = tagRs))

instance (nl : List Char) : Decidable (nlOk nl) :=
  inferInstanceAs (Decidable (nl = ['\r', '\n'] ∨ nl = ['\r'] ∨ nl = ['\n']))

theorem leadsWith_append (p t : List Char) : leadsWith p (p ++ t) = true := by
  induction p with
  | nil => rfl
  | cons c cs ih => simp [leadsWith, ih]

theorem leadsWith_shape {p s : List Char} (h : leadsWith p s = true) :
    s = p ++ s.drop p.length := by
  induction p generalizing s with
  | nil => simp
  | cons c cs ih =>
    cases s with
    | nil => simp [leadsWith] at h
    | cons d ds =>
      simp only [leadsWith, Bool.and_eq_true, beq_iff_eq] at h
      obtain ⟨hc, hds⟩ := h
      subst hc
      simpa using ih hds

theorem ciTake_shape {p s tk rest : List Char}
    (h : ciTake p s = some (tk, rest)) :
    s = tk ++ rest ∧ tk.map Char.toLower = p.map Char.toLower := by
  induction p generalizing s tk rest with
  | nil =>
    simp only [ciTake, Option.some.injEq, Prod.mk.injEq] at h
    obtain ⟨h1, h2⟩ := h
    subst h1; subst h2; simp
  | cons c cs ih =>
    cases s with
    | nil => simp [ciTake] at h
    | cons d ds =>
      simp only [ciTake] at h
      by_cases hci : charCI c d
      · rw [if_pos hci] at h
        cases hre : ciTake cs ds with
        | none => rw [hre] at h; simp at h
        | some pr =>
          obtain ⟨tk2, rest2⟩ := pr
          rw [hre] at h
          simp only [Option.some.injEq, Prod.mk.injEq] at h
          obtain ⟨h1, h2⟩ := h
          subst h2
          obtain ⟨hs, hmap⟩ := ih hre
          subst hs
          have hdc : d.toLower = c.toLower := by
            have h3 : charCI c d = true := hci
            simp only [charCI, beq_iff_eq] at h3
            exact h3.symm
          simp [← h1, hmap, hdc]
      · rw [if_neg hci] at h; simp at h

theorem nlFence_shape {s nl rest : List Char}
    (h : nlFence s = some (nl, rest)) :
    s = nl ++ fence ++ rest ∧ nlOk nl := by
  unfold nlFence at h
  by_cases h1 : leadsWith (['\r', '\n'] ++ fence) s
  · rw [if_pos h1] at h
    simp only [Option.some.injEq, Prod.mk.injEq] at h
    obtain ⟨hnl, hrest⟩ := h
    subst hnl; subst hrest
    constructor
    · have := leadsWith_shape h1
      simpa [fence] using this
    · left; rfl
  · rw [if_neg h1] at h
    by_cases h2 : leadsWith (['\r'] ++ fence) s
    · rw [if_pos h2] at h
      simp only [Option.some.injEq, Prod.mk.injEq] at h
      obtain ⟨hnl, hrest⟩ := h
      subst hnl; subst hrest
      constructor
      · have := leadsWith_shape h2
        simpa [fence] using this
      · right; left; rfl
    · rw [if_neg h2] at h
      by_cases h3 : leadsWith (['\n'] ++ fence) s
      · rw [if_pos h3] at h
        simp only [Option.some.injEq, Prod.mk.injEq] at h
        obtain ⟨hnl, hrest⟩ := h
        subst hnl; subst hrest
        constructor
        · have := leadsWith_shape h3
          simpa [fence] using this
        · right; right; rfl
      · rw [if_neg h3] at h; simp at h

theorem findSplit_shape {s body nl after : List Char}
    (h : findSplit s = some (body, nl, after)) :
    s = body ++ nl ++ fence ++ after ∧ body ≠ [] ∧ nlOk nl := by
  induction s generalizing body nl after with
  | nil => simp [findSplit] at h
  | cons c rest ih =>
    simp only [findSplit] at h
    cases hf : nlFence rest with
    | some pr =>
      obtain ⟨nl2, after2⟩ := pr
      rw [hf] at h
      simp only [Option.some.injEq, Prod.mk.injEq] at h
      obtain ⟨hb, hnl, ha⟩ := h
      subst hb; subst hnl; subst ha
      obtain ⟨hsh, hok⟩ := nlFence_shape hf
      exact ⟨by simp [hsh], by simp, hok⟩
    | none =>
      rw [hf] at h
      cases hg : findSplit rest with
      | none => rw [hg] at h; simp at h
      | some pr =>
        obtain ⟨body2, nl2, after2⟩ := pr
        rw [hg] at h
        simp only [Option.some.injEq, Prod.mk.injEq] at h
        obtain ⟨hb, hnl, ha⟩ := h
        subst hnl; subst ha
        obtain ⟨hsh, hne, hok⟩ := ih hg
        subst hsh
        exact ⟨by simp [← hb], by simp [← hb], hok⟩

theorem nlOptions_shape {s : List Char} {nl1 s3 : List Char}
    (h : (nl1, s3) ∈ nlOptions s) : s = nl1 ++ s3 ∧ nl1 ≠ [] := by
  cases s with
  | nil => simp [nlOptions] at h
  | cons a t =>
    cases t with
    | nil =>
      by_cases ha : a = '\r'
      · subst ha
        simp [nlOptions] at h
        obtain ⟨h1, h2⟩ := h
        subst h1; subst h2; simp
      · by_cases hb : a = '\n'
        · subst hb
          simp [nlOptions] at h
          obtain ⟨h1, h2⟩ := h
          subst h1; subst h2; simp
        · simp [nlOptions, ha, hb] at h
    | cons b rest =>
      by_cases ha : a = '\r'
      · subst ha
        by_cases hb : b = '\n'
        · subst hb
          simp [nlOptions] at h
          rcases h with ⟨h1, h2⟩ | ⟨h1, h2⟩ <;>
            (subst h1; subst h2; simp)
        · simp [nlOptions, hb] at h
          obtain ⟨h1, h2⟩ := h
          subst h1; subst h2; simp
      · by_cases hb : a = '\n'
        · subst hb
          simp [nlOptions] at h
          obtain ⟨h1, h2⟩ := h
          subst h1; subst h2; simp
        · simp [nlOptions, ha, hb] at h

theorem tryNL_shape {tag : List Char} {cands : List (List Char × List Char)}
    {m : MatchData} (h : tryNL tag cands = some m) :
    m.g1 = tag ∧ ∃ c ∈ cands, m.g2 = c.1 ∧
      findSplit c.2 = some (m.g3, m.g4, m.rest) := by
  induction cands with
  | nil => simp [tryNL] at h
  | cons c more ih =>
    obtain ⟨nl1, s3⟩ := c
    simp only [tryNL] at h
    cases hf : findSplit s3 with
    | some pr =>
      obtain ⟨body, nl2, rest⟩ := pr
      rw [hf] at h
      simp only [Option.some.injEq] at h
      subst h
      exact ⟨rfl, (nl1, s3), List.mem_cons_self _ _, rfl, hf⟩
    | none =>
      rw [hf] at h
      obtain ⟨h1, cc, hcc, h2⟩ := ih h
      exact ⟨h1, cc, List.mem_cons_of_mem _ hcc, h2⟩

theorem matchTag_shape {s1 tag s2 : List Char}
    (h : matchTag s1 = some (tag, s2)) :
    s1 = tag ++ s2 ∧
      (tag.map Char.toLower = tagRust ∨ tag.map Char.toLower = tagRs) := by
  unfold matchTag at h
  cases hr : ciTake tagRust s1 with
  | some pr =>
    rw [hr] at h
    simp only [Option.some.injEq] at h
    subst h
    obtain ⟨h1, h2⟩ := ciTake_shape hr
    exact ⟨h1, Or.inl (by simpa [tagRust] using h2)⟩
  | none =>
    rw [hr] at h
    obtain ⟨h1, h2⟩ := ciTake_shape h
    exact ⟨h1, Or.inr (by simpa [tagRs] using h2)⟩

theorem matchAt_shape {s : List Char} {m : MatchData}
    (h : matchAt s = some m) :
    s = fence ++ m.g1 ++ m.g2 ++ m.g3 ++ m.g4 ++ fence ++ m.rest ∧
      m.g1 ≠ [] ∧ m.g2 ≠ [] ∧ m.g3 ≠ [] ∧ nlOk m.g4 := by
  cases s with
  | nil => simp [matchAt] at h
  | cons a t =>
    cases t with
    | nil => simp [matchAt] at h
    | cons b t2 =>
      cases t2 with
      | nil => simp [matchAt] at h
      | cons c s1 =>
        simp only [matchAt] at h
        by_cases habc : a = '`' ∧ b = '`' ∧ c = '`'
        · obtain ⟨ha, hb, hc⟩ := habc
          subst ha; subst hb; subst hc
          rw [if_pos ⟨rfl, rfl, rfl⟩] at h
          cases ht : matchTag s1 with
          | none => rw [ht] at h; simp at h
          | some pr =>
            obtain ⟨tag, s2⟩ := pr
            rw [ht] at h
            obtain ⟨hg1, cc, hcc, hg2, hfs⟩ := tryNL_shape h
            obtain ⟨hs2, hne1⟩ := nlOptions_shape hcc
            obtain ⟨hs3, hne3, hok4⟩ := findSplit_shape hfs
            obtain ⟨hs1, htagkind⟩ := matchTag_shape ht
            have htagne : tag ≠ [] := by
              intro hc2
              subst hc2
              rcases htagkind with hk | hk <;> simp [tagRust, tagRs] at hk
            refine ⟨?_, by rw [hg1]; exact htagne,
              by rw [hg2]; exact hne1, hne3, hok4⟩
            rw [hs1, hs2, hs3, hg1, hg2]
            simp [fence]
        · rw [if_neg habc] at h; simp at h

theorem matchAt_rest_lt {s : List Char} {m : MatchData}
    (h : matchAt s = some m) : m.rest.length < s.length := by
  obtain ⟨hs, h1, h2, h3, _⟩ := matchAt_shape h
  rw [hs]
  have l1 : 0 < m.g1.length := List.length_pos.mpr h1
  have l2 : 0 < m.g2.length := List.length_pos.mpr h2
  have l3 : 0 < m.g3.length := List.length_pos.mpr h3
  simp only [List.length_append, fence, List.length_cons, List.length_nil]
  omega

theorem replaceAllF_nil (f : Nat) : replaceAllF f [] = [] := by
  cases f <;> rfl

theorem replaceAllF_congr :
    ∀ f g s, s.length ≤ f → s.length ≤ g → replaceAllF f s = replaceAllF g s := by
  intro f
  induction f with
  | zero =>
    intro g s hf _
    have : s = [] := List.eq_nil_of_length_eq_zero (Nat.le_zero.mp hf)
    subst this
    rw [replaceAllF_nil, replaceAllF_nil]
  | succ f ih =>
    intro g s hf hg
    cases s with
    | nil => rw [replaceAllF_nil, replaceAllF_nil]
    | cons c cs =>
      cases g with
      | zero => simp at hg
      | succ g2 =>
        simp only [replaceAllF]
        cases hm : matchAt (c :: cs) with
        | some m =>
          have hlt := matchAt_rest_lt hm
          simp only [List.length_cons] at hlt hf hg
          show replacement m ++ replaceAllF f m.rest =
            replacement m ++ replaceAllF g2 m.rest
          rw [ih g2 m.rest (by omega) (by omega)]
        | none =>
          simp only [List.length_cons] at hf hg
          show c :: replaceAllF f cs = c :: replaceAllF g2 cs
          rw [ih g2 cs (by omega) (by omega)]

theorem replaceAll_match {s : List Char} {m : MatchData}
    (h : matchAt s = some m) :
    replaceAll s = replacement m ++ replaceAll m.rest := by
  cases s with
  | nil => simp [matchAt] at h
  | cons c cs =>
    have hlt := matchAt_rest_lt h
    simp only [List.length_cons] at hlt
    simp only [replaceAll, List.length_cons, replaceAllF, h]
    rw [replaceAllF_congr cs.length m.rest.length m.rest (by omega) (by omega)]

theorem replaceAll_skip {c : Char} {cs : List Char}
    (h : matchAt (c :: cs) = none) :
    replaceAll (c :: cs) = c :: replaceAll cs := by
  simp only [replaceAll, List.length_cons, replaceAllF, h]

theorem matchAt_not1 {a : Char} {s : List Char} (h : a ≠ '`') :
    matchAt (a :: s) = none := by
  cases s with
  | nil => rfl
  | cons b t =>
    cases t with
    | nil => rfl
    | cons c r => simp [matchAt, h]

theorem matchAt_not2 {a b : Char} {s : List Char} (h : b ≠ '`') :
    matchAt (a :: b :: s) = none := by
  cases s with
  | nil => rfl
  | cons c r => simp [matchAt, h]

theorem matchAt_not3 {a b c : Char} {s : List Char} (h : c ≠ '`') :
    matchAt (a :: b :: c :: s) = none := by
  simp [matchAt, h]

theorem replaceAll_noTick {s : List Char} (h : noTick s) : replaceAll s = s := by
  induction s with
  | nil => rfl
  | cons c cs ih =>
    have hc : c ≠ '`' := h c (List.mem_cons_self _ _)
    rw [replaceAll_skip (matchAt_not1 hc),
      ih (fun d hd => h d (List.mem_cons_of_mem _ hd))]

theorem replaceAll_append_noTick {pre : List Char} (h : noTick pre)
    (s : List Char) : replaceAll (pre ++ s) = pre ++ replaceAll s := by
  induction pre with
  | nil => simp
  | cons c ps ih =>
    have hc : c ≠ '`' := h c (List.mem_cons_self _ _)
    rw [List.cons_append, replaceAll_skip (matchAt_not1 hc),
      ih (fun d hd => h d (List.mem_cons_of_mem _ hd))]
    rfl

theorem repNEF_nil (f : Nat) (t r : List Char) : repNEF f [] t r = [] := by
  cases f <;> rfl

theorem repNEF_congr :
    ∀ f g s t r, t ≠ [] → s.length ≤ f → s.length ≤ g →
      repNEF f s t r = repNEF g s t r := by
  intro f
  induction f with
  | zero =>
    intro g s t r _ hf _
    have : s = [] := List.eq_nil_of_length_eq_zero (Nat.le_zero.mp hf)
    subst this
    rw [repNEF_nil, repNEF_nil]
  | succ f ih =>
    intro g s t r ht hf hg
    cases s with
    | nil => rw [repNEF_nil, repNEF_nil]
    | cons c cs =>
      cases g with
      | zero => simp at hg
      | succ g2 =>
        have htl : 0 < t.length := List.length_pos.mpr ht
        simp only [repNEF]
        by_cases hl : leadsWith t (c :: cs) = true
        · rw [if_pos hl, if_pos hl]
          have hd : ((c :: cs).drop t.length).length ≤ cs.length := by
            simp only [List.length_drop, List.length_cons]
            omega
          simp only [List.length_cons] at hf hg
          rw [ih g2 _ t r ht (by omega) (by omega)]
        · rw [if_neg hl, if_neg hl]
          simp only [List.length_cons] at hf hg
          rw [ih g2 cs t r ht (by omega) (by omega)]

theorem strReplace_nil {t : List Char} (r : List Char) (ht : t ≠ []) :
    strReplace [] t r = [] := by
  cases t with
  | nil => exact absurd rfl ht
  | cons x xs => rfl

theorem strReplace_pos {s t r : List Char} (ht : t ≠ [])
    (h : leadsWith t s = true) :
    strReplace s t r = r ++ strReplace (s.drop t.length) t r := by
  cases t with
  | nil => exact absurd rfl ht
  | cons x xs =>
    cases s with
    | nil => simp [leadsWith] at h
    | cons c cs =>
      simp only [strReplace, List.length_cons, repNEF, if_pos h]
      have hd : (List.drop (xs.length + 1) (c :: cs)).length ≤ cs.length := by
        simp only [List.length_drop, List.length_cons]
        omega
      exact congrArg (fun l => r ++ l)
        (repNEF_congr cs.length (List.drop (xs.length + 1) (c :: cs)).length
          (List.drop (xs.length + 1) (c :: cs)) (x :: xs) r (by simp) hd
          (le_refl _))

theorem strReplace_neg {c : Char} {cs t r : List Char} (ht : t ≠ [])
    (h : leadsWith t (c :: cs) = false) :
    strReplace (c :: cs) t r = c :: strReplace cs t r := by
  cases t with
  | nil => exact absurd rfl ht
  | cons x xs =>
    simp only [strReplace, List.length_cons, repNEF, h, if_neg]
    simp [h]

theorem nlFence_none_noTick {s : List Char} (h : noTick s) :
    nlFence s = none := by
  cases hopt : nlFence s with
  | none => rfl
  | some pr =>
    obtain ⟨nl, rest⟩ := pr
    obtain ⟨hsh, _⟩ := nlFence_shape hopt
    exfalso
    refine h '`' ?_ rfl
    rw [hsh]
    simp [fence]

theorem findSplit_none_noTick {s : List Char} (h : noTick s) :
    findSplit s = none := by
  induction s with
  | nil => rfl
  | cons c rest ih =>
    have hrest : noTick rest := fun d hd => h d (List.mem_cons_of_mem _ hd)
    simp only [findSplit, nlFence_none_noTick hrest, ih hrest]

theorem tryNL_none {tag : List Char} {cands : List (List Char × List Char)}
    (h : ∀ p ∈ cands, findSplit p.2 = none) : tryNL tag cands = none := by
  induction cands with
  | nil => rfl
  | cons c more ih =>
    obtain ⟨nl1, s3⟩ := c
    have h1 : findSplit s3 = none := h (nl1, s3) (List.mem_cons_self _ _)
    simp only [tryNL, h1]
    exact ih fun p hp => h p (List.mem_cons_of_mem _ hp)

theorem matchAt_fence_noTick {post : List Char} (h : noTick post) :
    matchAt (fence ++ post) = none := by
  show matchAt ('`' :: '`' :: '`' :: post) = none
  cases post with
  | nil => rfl
  | cons p ps =>
    simp only [matchAt, if_pos (⟨rfl, rfl, rfl⟩ : ('`' : Char) = '`' ∧
      ('`' : Char) = '`' ∧ ('`' : Char) = '`')]
    cases ht : matchTag (p :: ps) with
    | none => rfl
    | some pr =>
      obtain ⟨tag, s2⟩ := pr
      obtain ⟨hs1, _⟩ := matchTag_shape ht
      have hs2 : noTick s2 := by
        intro d hd
        exact h d (by rw [hs1]; exact List.mem_append_right _ hd)
      refine tryNL_none fun q hq => ?_
      obtain ⟨hq1, _⟩ := nlOptions_shape hq
      refine findSplit_none_noTick fun d hd => ?_
      exact hs2 d (by rw [hq1]; exact List.mem_append_right _ hd)

theorem replaceAll_fence_cons {L : List Char}
    (hL : matchAt (fence ++ L) = none)
    (hhead : ∀ c t, L = c :: t → c ≠ '`') :
    replaceAll (fence ++ L) = fence ++ replaceAll L := by
  cases L with
  | nil => rfl
  | cons c t =>
    have hc : c ≠ '`' := hhead c t rfl
    have h1 : matchAt ('`' :: '`' :: '`' :: c :: t) = none := hL
    have h2 : matchAt ('`' :: '`' :: c :: t) = none := matchAt_not3 hc
    have h3 : matchAt ('`' :: c :: t) = none := matchAt_not2 hc
    show replaceAll ('`' :: '`' :: '`' :: c :: t) = fence ++ replaceAll (c :: t)
    rw [replaceAll_skip h1, replaceAll_skip h2, replaceAll_skip h3]
    rfl

theorem replaceAll_fence_noTick {post : List Char} (h : noTick post) :
    replaceAll (fence ++ post) = fence ++ post := by
  rw [replaceAll_fence_cons (matchAt_fence_noTick h)
    (fun c t hct => by rw [hct] at h; exact h c (List.mem_cons_self _ _)),
    replaceAll_noTick h]

theorem nlFence_at {nl : List Char} (hnl : nlOk nl) (post : List Char) :
    nlFence (nl ++ fence ++ post) = some (nl, post) := by
  rcases hnl with h | h | h <;> subst h
  · have h1 : leadsWith (['\r', '\n'] ++ fence)
        (['\r', '\n'] ++ fence ++ post) = true := by
      rw [List.append_assoc]
      exact leadsWith_append _ _
    simp only [nlFence, if_pos h1]
    simp [fence]
  · have h1 : leadsWith (['\r', '\n'] ++ fence)
        (['\r'] ++ fence ++ post) = false := by
      simp [leadsWith, fence]
    have h2 : leadsWith (['\r'] ++ fence) (['\r'] ++ fence ++ post) = true := by
      rw [List.append_assoc]
      exact leadsWith_append _ _
    simp only [nlFence, h1, Bool.false_eq_true, if_false, if_pos h2]
    simp [fence]
  · have h1 : leadsWith (['\r', '\n'] ++ fence)
        (['\n'] ++ fence ++ post) = false := by
      simp [leadsWith, fence]
    have h2 : leadsWith (['\r'] ++ fence) (['\n'] ++ fence ++ post) = false := by
      simp [leadsWith, fence]
    have h3 : leadsWith (['\n'] ++ fence) (['\n'] ++ fence ++ post) = true := by
      rw [List.append_assoc]
      exact leadsWith_append _ _
    simp only [nlFence, h1, h2, Bool.false_eq_true, if_false, if_pos h3]
    simp [fence]

theorem nlFence_inner_none (u nl2 post : List Char) (hu : noTick u)
    (hne : u ≠ []) (h2 : nlOk nl2) (hex : ¬(u = ['\r'] ∧ nl2 = ['\n'])) :
    nlFence (u ++ nl2 ++ fence ++ post) = none := by
  cases hopt : nlFence (u ++ nl2 ++ fence ++ post) with
  | none => rfl
  | some pr =>
    obtain ⟨nl, rest⟩ := pr
    obtain ⟨hsh, hok⟩ := nlFence_shape hopt
    exfalso
    cases u with
    | nil => exact hne rfl
    | cons x u2 =>
      cases u2 with
      | nil =>
        rcases hok with hk | hk | hk <;> subst hk <;>
          rcases h2 with hj | hj | hj <;> subst hj <;>
            simp [fence] at hsh
        exact hex ⟨by simp [hsh.1], rfl⟩
      | cons y u3 =>
        have hy : y ≠ '`' := hu y (List.mem_cons_of_mem _
          (List.mem_cons_self _ _))
        rcases hok with hk | hk | hk <;> subst hk <;> simp [fence] at hsh
        · obtain ⟨-, -, hrest⟩ := hsh
          cases u3 with
          | nil =>
            rcases h2 with hj | hj | hj <;> subst hj <;> simp at hrest
          | cons z u4 =>
            have hz : z ≠ '`' := hu z (List.mem_cons_of_mem _
              (List.mem_cons_of_mem _ (List.mem_cons_self _ _)))
            simp at hrest
            exact hz hrest.1
        · exact hy hsh.2.1
        · exact hy hsh.2.1

theorem findSplit_cons_eq (c : Char) (rest : List Char) :
    findSplit (c :: rest) =
      match nlFence rest with
      | some (nl, after) => some ([c], nl, after)
      | none =>
        match findSplit rest with
        | some (body, nl, after) => some (c :: body, nl, after)
        | none => none := rfl

theorem findSplit_exact (body nl2 post : List Char) (hb : noTick body)
    (hne : body ≠ []) (h2 : nlOk nl2)
    (hlast : body.getLast? = some '\r' → nl2 ≠ ['\n']) :
    findSplit (body ++ nl2 ++ fence ++ post) = some (body, nl2, post) := by
  induction body with
  | nil => exact absurd rfl hne
  | cons b rest ih =>
    cases rest with
    | nil =>
      show findSplit (b :: (nl2 ++ fence ++ post)) = some ([b], nl2, post)
      rw [findSplit_cons_eq]
      have hx : nlFence (nl2 ++ fence ++ post) = some (nl2, post) :=
        nlFence_at h2 post
      rw [show nl2 ++ fence ++ post = nl2 ++ (fence ++ post) from by simp] at hx ⊢
      rw [hx]
    | cons d bs =>
      have hrest : noTick (d :: bs) := fun c hc =>
        hb c (List.mem_cons_of_mem _ hc)
      have hexx : ¬(d :: bs = ['\r'] ∧ nl2 = ['\n']) := by
        rintro ⟨hd, hn⟩
        refine hlast ?_ hn
        rw [show b :: d :: bs = [b] ++ (d :: bs) from rfl,
          List.getLast?_append_of_ne_nil _ (by simp), hd]
        rfl
      have hlast2 : (d :: bs).getLast? = some '\r' → nl2 ≠ ['\n'] := by
        intro hg
        refine hlast ?_
        rw [show b :: d :: bs = [b] ++ (d :: bs) from rfl,
          List.getLast?_append_of_ne_nil _ (by simp)]
        exact hg
      have hstep := ih hrest (by simp) hlast2
      have hnone := nlFence_inner_none (d :: bs) nl2 post hrest (by simp) h2 hexx
      rw [show (d :: bs) ++ nl2 ++ fence ++ post =
        (d :: bs) ++ (nl2 ++ fence ++ post) from by simp] at hstep hnone
      have hgoal : (b :: d :: bs) ++ nl2 ++ fence ++ post =
          b :: ((d :: bs) ++ (nl2 ++ fence ++ post)) := by simp
      rw [hgoal, findSplit_cons_eq, hnone]
      show (match findSplit ((d :: bs) ++ (nl2 ++ fence ++ post)) with
        | some (body, nl, after) => some (b :: body, nl, after)
        | none => none) = some (b :: (d :: bs), nl2, post)
      rw [hstep]

theorem ciTake_of_ci {p tag : List Char}
    (h : tag.map Char.toLower = p.map Char.toLower) (rest : List Char) :
    ciTake p (tag ++ rest) = some (tag, rest) := by
  induction p generalizing tag with
  | nil =>
    have : tag = [] := by simpa using h
    subst this
    rfl
  | cons c cs ih =>
    cases tag with
    | nil => simp at h
    | cons d ds =>
      simp only [List.map_cons, List.cons.injEq] at h
      obtain ⟨hd, hds⟩ := h
      have hci : charCI c d = true := by
        simp [charCI, hd]
      show ciTake (c :: cs) (d :: (ds ++ rest)) = some (d :: ds, rest)
      simp only [ciTake, if_pos hci, ih hds]

theorem matchTag_exact {tag : List Char} (h : isTag tag) (rest : List Char) :
    matchTag (tag ++ rest) = some (tag, rest) := by
  rcases h with h | h
  · have : ciTake tagRust (tag ++ rest) = some (tag, rest) :=
      ciTake_of_ci (by rw [h]; rfl) rest
    simp only [matchTag, this]
  · cases tag with
    | nil => simp [tagRs] at h
    | cons a t =>
      cases t with
      | nil => simp [tagRs] at h
      | cons b t2 =>
        cases t2 with
        | cons x xs => simp [tagRs] at h
        | nil =>
          simp only [tagRs, List.map_cons, List.map_nil,
            List.cons.injEq, and_true] at h
          obtain ⟨ha, hb⟩ := h
          have hrust : ciTake tagRust ([a, b] ++ rest) = none := by
            have h1 : charCI 'r' a = true := by
              simp [charCI, ha]
            have h2 : charCI 'u' b = false := by
              simp [charCI, hb]
            simp only [tagRust, List.cons_append, ciTake, if_pos h1,
              h2, Bool.false_eq_true, if_false]
          have hrs : ciTake tagRs ([a, b] ++ rest) = some ([a, b], rest) :=
            ciTake_of_ci (by simp [tagRs, ha, hb]) rest
          simp only [matchTag, hrust, hrs]

theorem nlOptions_head {nl1 x : List Char} (h1 : nlOk nl1)
    (hA : nl1 = ['\r'] → x.head? ≠ some '\n') :
    ∃ more, nlOptions (nl1 ++ x) = (nl1, x) :: more := by
  rcases h1 with h | h | h <;> subst h
  · exact ⟨[(['\r'], '\n' :: x)], by simp [nlOptions]⟩
  · cases x with
    | nil => exact ⟨[], by simp [nlOptions]⟩
    | cons c cs =>
      have hc : c ≠ '\n' := by
        intro hc2
        exact hA rfl (by rw [hc2]; rfl)
      refine ⟨[], ?_⟩
      show nlOptions ('\r' :: c :: cs) = [(['\r'], c :: cs)]
      simp [nlOptions, hc]
  · cases x with
    | nil => exact ⟨[], by simp [nlOptions]⟩
    | cons c cs =>
      refine ⟨[], ?_⟩
      show nlOptions ('\n' :: c :: cs) = [(['\n'], c :: cs)]
      simp [nlOptions]

theorem matchAt_block (tag nl1 body nl2 post : List Char) (htag : isTag tag)
    (h1 : nlOk nl1) (h2 : nlOk nl2) (hb : noTick body) (hne : body ≠ [])
    (hA : nl1 = ['\r'] → body.head? ≠ some '\n')
    (hB : body.getLast? = some '\r' → nl2 ≠ ['\n']) :
    matchAt (fence ++ tag ++ nl1 ++ body ++ nl2 ++ fence ++ post) =
      some ⟨tag, nl1, body, nl2, post⟩ := by
  have hAx : nl1 = ['\r'] →
      (body ++ nl2 ++ fence ++ post).head? ≠ some '\n' := by
    intro hr
    cases body with
    | nil => exact absurd rfl hne
    | cons c cs =>
      have := hA hr
      simpa using this
  obtain ⟨more, hmore⟩ := nlOptions_head h1 hAx
  have hsplit := findSplit_exact body nl2 post hb hne h2 hB
  have hshow : fence ++ tag ++ nl1 ++ body ++ nl2 ++ fence ++ post =
      '`' :: '`' :: '`' :: (tag ++ (nl1 ++ (body ++ nl2 ++ fence ++ post))) := by
    simp [fence]
  rw [hshow]
  have e1 : matchAt
      ('`' :: '`' :: '`' :: (tag ++ (nl1 ++ (body ++ nl2 ++ fence ++ post)))) =
      match matchTag (tag ++ (nl1 ++ (body ++ nl2 ++ fence ++ post))) with
      | some (tg, s2) => tryNL tg (nlOptions s2)
      | none => none := by
    simp [matchAt]
  rw [e1, matchTag_exact htag]
  show tryNL tag (nlOptions (nl1 ++ (body ++ nl2 ++ fence ++ post))) =
    some ⟨tag, nl1, body, nl2, post⟩
  rw [hmore]
  show (match findSplit (body ++ nl2 ++ fence ++ post) with
    | some (b2, n2, r2) => some (⟨tag, nl1, b2, n2, r2⟩ : MatchData)
    | none => tryNL tag more) = some ⟨tag, nl1, body, nl2, post⟩
  rw [hsplit]

theorem splice {pre tag nl1 body nl2 post : List Char} (hpre : noTick pre)
    (htag : isTag tag) (h1 : nlOk nl1) (h2 : nlOk nl2) (hb : noTick body)
    (hne : body ≠ []) (hA : nl1 = ['\r'] → body.head? ≠ some '\n')
    (hB : body.getLast? = some '\r' → nl2 ≠ ['\n']) :
    replaceAll (pre ++ fence ++ tag ++ nl1 ++ body ++ nl2 ++ fence ++ post) =
      pre ++ fence ++ tag ++ nl1 ++ body ++ nl2 ++ nl2 ++ marker ++ nl2 ++
        fence ++ replaceAll post := by
  have hm := matchAt_block tag nl1 body nl2 post htag h1 h2 hb hne hA hB
  have hassoc : pre ++ fence ++ tag ++ nl1 ++ body ++ nl2 ++ fence ++ post =
      pre ++ (fence ++ tag ++ nl1 ++ body ++ nl2 ++ fence ++ post) := by
    simp
  rw [hassoc, replaceAll_append_noTick hpre, replaceAll_match hm]
  simp [replacement]

theorem isTag_noTick {tag : List Char} (h : isTag tag) : noTick tag := by
  intro c hc hc2
  subst hc2
  have hm : Char.toLower '`' ∈ tag.map Char.toLower :=
    List.mem_map_of_mem _ hc
  rcases h with h | h <;> rw [h] at hm <;> exact absurd hm (by decide)

theorem nlOptions_nil_of {x : Char} {w : List Char} (hx1 : x ≠ '\r')
    (hx2 : x ≠ '\n') : nlOptions (x :: w) = [] := by
  cases w with
  | nil => simp [nlOptions, hx1, hx2]
  | cons c cs => simp [nlOptions, hx1, hx2]

theorem nlFence_head_not_nl {c : Char} {w : List Char} (h1 : c ≠ '\r')
    (h2 : c ≠ '\n') : nlFence (c :: w) = none := by
  cases hopt : nlFence (c :: w) with
  | none => rfl
  | some pr =>
    obtain ⟨nl, rest⟩ := pr
    obtain ⟨hsh, hok⟩ := nlFence_shape hopt
    exfalso
    rcases hok with hk | hk | hk <;> subst hk <;>
      simp only [List.cons_append, List.nil_append, List.cons.injEq] at hsh
    · exact h1 hsh.1
    · exact h1 hsh.1
    · exact h2 hsh.1

theorem findSplit_fence_none {post : List Char} (hpost : noTick post) :
    findSplit (fence ++ post) = none := by
  have l5 : findSplit post = none := findSplit_none_noTick hpost
  have l4 : nlFence post = none := nlFence_none_noTick hpost
  have ltick : nlFence ('`' :: post) = none :=
    nlFence_head_not_nl (by decide) (by decide)
  have ltick2 : nlFence ('`' :: '`' :: post) = none :=
    nlFence_head_not_nl (by decide) (by decide)
  have f1 : findSplit ('`' :: post) = none := by
    rw [findSplit_cons_eq, l4]
    show (match findSplit post with
      | some (body, nl, after) => some ('`' :: body, nl, after)
      | none => none) = none
    rw [l5]
  have f2 : findSplit ('`' :: '`' :: post) = none := by
    rw [findSplit_cons_eq, ltick]
    show (match findSplit ('`' :: post) with
      | some (body, nl, after) => some ('`' :: body, nl, after)
      | none => none) = none
    rw [f1]
  show findSplit ('`' :: '`' :: '`' :: post) = none
  rw [findSplit_cons_eq, ltick2]
  show (match findSplit ('`' :: '`' :: post) with
    | some (body, nl, after) => some ('`' :: body, nl, after)
    | none => none) = none
  rw [f2]

theorem matchAt_eq_tagstep (w : List Char) :
    matchAt ('`' :: '`' :: '`' :: w) =
      match matchTag w with
      | some (tg, s2) => tryNL tg (nlOptions s2)
      | none => none := by
  simp [matchAt]

theorem matchAt_open_badtag (tag nl1 r : List Char) (hnl : noNL tag)
    (hne1 : tag.map Char.toLower ≠ tagRust)
    (hne2 : tag.map Char.toLower ≠ tagRs) (h1 : nlOk nl1) :
    matchAt (fence ++ tag ++ nl1 ++ r) = none := by
  rw [show fence ++ tag ++ nl1 ++ r =
    '`' :: '`' :: '`' :: (tag ++ (nl1 ++ r)) from by simp [fence]]
  rw [matchAt_eq_tagstep]
  cases ht : matchTag (tag ++ (nl1 ++ r)) with
  | none => rfl
  | some pr =>
    obtain ⟨tk, s2⟩ := pr
    obtain ⟨heq, hkind⟩ := matchTag_shape ht
    show tryNL tk (nlOptions s2) = none
    rcases List.append_eq_append_iff.mp heq with ⟨a2, hc1, hc2⟩ | ⟨c2, hc1, hc2⟩
    · cases a2 with
      | nil =>
        exfalso
        rw [List.append_nil] at hc1
        rcases hkind with hk | hk <;> rw [hc1] at hk
        · exact hne1 hk
        · exact hne2 hk
      | cons y a3 =>
        exfalso
        have hy_in : y ∈ tk := by
          rw [hc1]
          exact List.mem_append_right _ (List.mem_cons_self _ _)
        have hylow : y.toLower ∈ tk.map Char.toLower :=
          List.mem_map_of_mem _ hy_in
        rcases h1 with hh | hh | hh <;> subst hh <;>
          simp only [List.cons_append, List.nil_append,
            List.cons.injEq] at hc2 <;>
          rw [← hc2.1] at hylow <;>
          rcases hkind with hk | hk <;> rw [hk] at hylow <;>
            exact absurd hylow (by decide)
    · cases c2 with
      | nil =>
        exfalso
        rw [List.append_nil] at hc1
        rcases hkind with hk | hk <;> rw [← hc1] at hk
        · exact hne1 hk
        · exact hne2 hk
      | cons x c3 =>
        have hx : x ∈ tag := by
          rw [hc1]
          exact List.mem_append_right _ (List.mem_cons_self _ _)
        obtain ⟨hx1, hx2⟩ := hnl x hx
        rw [hc2]
        show tryNL tk (nlOptions (x :: (c3 ++ (nl1 ++ r)))) = none
        rw [nlOptions_nil_of hx1 hx2]
        rfl

theorem matchAt_open_emptybody (tag nl post : List Char) (htag : isTag tag)
    (h1 : nlOk nl) (hpost : noTick post) :
    matchAt (fence ++ tag ++ nl ++ fence ++ post) = none := by
  rw [show fence ++ tag ++ nl ++ fence ++ post =
    '`' :: '`' :: '`' :: (tag ++ (nl ++ (fence ++ post))) from by simp [fence]]
  rw [matchAt_eq_tagstep, matchTag_exact htag]
  show tryNL tag (nlOptions (nl ++ (fence ++ post))) = none
  have hfp : findSplit (fence ++ post) = none := findSplit_fence_none hpost
  have hnf : nlFence (fence ++ post) = none :=
    nlFence_head_not_nl (by decide) (by decide)
  have hlf : findSplit ('\n' :: (fence ++ post)) = none := by
    rw [findSplit_cons_eq, hnf]
    show (match findSplit (fence ++ post) with
      | some (body, nl2, after) => some ('\n' :: body, nl2, after)
      | none => none) = none
    rw [hfp]
  rcases h1 with hh | hh | hh <;> subst hh
  · have hcand : nlOptions (['\r', '\n'] ++ (fence ++ post)) =
        [(['\r', '\n'], fence ++ post), (['\r'], '\n' :: (fence ++ post))] := by
      simp [nlOptions]
    rw [hcand]
    simp only [tryNL, hfp, hlf]
  · have hcand : nlOptions (['\r'] ++ (fence ++ post)) =
        [(['\r'], fence ++ post)] := by
      show nlOptions ('\r' :: '`' :: '`' :: '`' :: post) =
        [(['\r'], '`' :: '`' :: '`' :: post)]
      simp [nlOptions]
    rw [hcand]
    simp only [tryNL, hfp]
  · have hcand : nlOptions (['\n'] ++ (fence ++ post)) =
        [(['\n'], fence ++ post)] := by
      show nlOptions ('\n' :: '`' :: '`' :: '`' :: post) =
        [(['\n'], '`' :: '`' :: '`' :: post)]
      simp [nlOptions]
    rw [hcand]
    simp only [tryNL, hfp]

theorem nlOk_noTick {nl : List Char} (h : nlOk nl) : noTick nl := by
  rcases h with h | h | h <;> subst h <;> intro c hc <;> simp at hc
  · rcases hc with h1 | h1 <;> subst h1 <;> decide
  · subst hc; decide
  · subst hc; decide

theorem noTick_append {a b : List Char} (ha : noTick a) (hb : noTick b) :
    noTick (a ++ b) := by
  intro c hc
  rcases List.mem_append.mp hc with h | h
  · exact ha c h
  · exact hb c h

theorem marker_noTick : noTick marker := by decide

/-- C2 (amended): for a document containing a fenced rust-family block, the
augmentation splices in exactly the captured closing break twice followed by
the marker line and one more closing break — that is, a blank line and then
the marker line appear between the last body line and the closing fence.
The hypotheses on the ends of the body rule out the reattribution of a
break character between the body group and the adjacent break groups. -/
theorem claim2_thm (pre tag nl1 body nl2 post : List Char) (hpre : noTick pre)
    (htag : isTag tag) (h1 : nlOk nl1) (h2 : nlOk nl2) (hb : noTick body)
    (hne : body ≠ []) (hpost : noTick post)
    (hA : nl1 = ['\r'] → body.head? ≠ some '\n')
    (hB : body.getLast? = some '\r' → nl2 ≠ ['\n']) :
    replaceAll (pre ++ fence ++ tag ++ nl1 ++ body ++ nl2 ++ fence ++ post) =
      pre ++ fence ++ tag ++ nl1 ++ body ++ nl2 ++ (nl2 ++ marker ++ nl2) ++
        fence ++ post := by
  rw [splice hpre htag h1 h2 hb hne hA hB, replaceAll_noTick hpost]
  simp

/-- C2 (counterexample): the claim that exactly one line — the marker line
alone, with no additional blank line — is inserted is false: the code
emits the captured break twice, so a blank line precedes the marker. -/
theorem claim2_neg :
    replaceAll ("```rust\nuse x;\n```".toList) =
      "```rust\nuse x;\n\n# Ok::<(), Box<dyn std::error::Error>>(())\n```".toList
    ∧ replaceAll ("```rust\nuse x;\n```".toList) ≠
      "```rust\nuse x;\n# Ok::<(), Box<dyn std::error::Error>>(())\n```".toList
    := by
  constructor
  · decide
  · decide

/-- C2 (witness): the amended statement instantiated on a concrete page. -/
theorem claim2_wit :
    replaceAll ("Intro\n".toList ++ fence ++ "rust".toList ++ ['\n'] ++
        "let x = f()?;".toList ++ ['\n'] ++ fence ++ "\nOutro\n".toList) =
      "Intro\n".toList ++ fence ++ "rust".toList ++ ['\n'] ++
        "let x = f()?;".toList ++ ['\n'] ++ (['\n'] ++ marker ++ ['\n']) ++
        fence ++ "\nOutro\n".toList :=
  claim2_thm "Intro\n".toList "rust".toList ['\n'] "let x = f()?;".toList
    ['\n'] "\nOutro\n".toList (by decide) (by decide) (by decide) (by decide)
    (by decide) (by decide) (by decide) (by decide) (by decide)

/-- C7 (confirmed): for a fenced rust block whose line breaks are all
`\r\n` pairs, the breaks placed around the inserted marker line are also
`\r\n`, and the document text before and after the block — hence every
line ending outside the matched block — is reproduced verbatim. -/
theorem claim7_thm (pre tag body post : List Char) (hpre : noTick pre)
    (htag : isTag tag) (hb : noTick body) (hne : body ≠ [])
    (hpost : noTick post) (_hcrlf : crlfOnly body = true) :
    replaceAll (pre ++ fence ++ tag ++ ['\r', '\n'] ++ body ++ ['\r', '\n'] ++
        fence ++ post) =
      pre ++ fence ++ tag ++ ['\r', '\n'] ++ body ++ ['\r', '\n'] ++
        (['\r', '\n'] ++ marker ++ ['\r', '\n']) ++ fence ++ post := by
  rw [splice hpre htag (Or.inl rfl) (Or.inl rfl) hb hne
    (fun h => absurd h (by decide)) (fun _ => by decide),
    replaceAll_noTick hpost]
  simp

/-- C7 (witness): a concrete all-CRLF block flanked by LF-only text. -/
theorem claim7_wit :
    replaceAll ("# A\n".toList ++ fence ++ "rs".toList ++ ['\r', '\n'] ++
        "a();\r\nb();".toList ++ ['\r', '\n'] ++ fence ++ "\n# B\n".toList) =
      "# A\n".toList ++ fence ++ "rs".toList ++ ['\r', '\n'] ++
        "a();\r\nb();".toList ++ ['\r', '\n'] ++
        (['\r', '\n'] ++ marker ++ ['\r', '\n']) ++ fence ++ "\n# B\n".toList :=
  claim7_thm "# A\n".toList "rs".toList "a();\r\nb();".toList "\n# B\n".toList
    (by decide) (by decide) (by decide) (by decide) (by decide) (by decide)

/-- C5 (confirmed): augmenting twice inserts the marker line twice into the
matched block — the block matched by the first pass, now carrying one
marker line, is matched again by the second pass, which adds a second
marker line before the closing fence; in particular the augmentation is
not idempotent. -/
theorem claim5_thm (pre tag nl body post : List Char) (hpre : noTick pre)
    (htag : isTag tag) (hnl : nlOk nl) (hb : noTick body) (hne : body ≠ [])
    (hpost : noTick post) (hA : nl = ['\r'] → body.head? ≠ some '\n')
    (hB : body.getLast? = some '\r' → nl ≠ ['\n']) :
    replaceAll (replaceAll
        (pre ++ fence ++ tag ++ nl ++ body ++ nl ++ fence ++ post)) =
      pre ++ fence ++ tag ++ nl ++ body ++ nl ++ nl ++ marker ++ nl ++
        nl ++ marker ++ nl ++ fence ++ post ∧
    replaceAll (replaceAll
        (pre ++ fence ++ tag ++ nl ++ body ++ nl ++ fence ++ post)) ≠
      replaceAll (pre ++ fence ++ tag ++ nl ++ body ++ nl ++ fence ++ post)
    := by
  have e1 : replaceAll (pre ++ fence ++ tag ++ nl ++ body ++ nl ++ fence ++
      post) = pre ++ fence ++ tag ++ nl ++ body ++ nl ++ nl ++ marker ++ nl ++
      fence ++ post := by
    rw [splice hpre htag hnl hnl hb hne hA hB, replaceAll_noTick hpost]
  have hb2 : noTick (body ++ nl ++ nl ++ marker) :=
    noTick_append (noTick_append (noTick_append hb (nlOk_noTick hnl))
      (nlOk_noTick hnl)) marker_noTick
  have hne2 : body ++ nl ++ nl ++ marker ≠ [] := by
    cases body with
    | nil => exact absurd rfl hne
    | cons c cs => simp
  have hA2 : nl = ['\r'] → (body ++ nl ++ nl ++ marker).head? ≠ some '\n' := by
    intro hr
    rw [show body ++ nl ++ nl ++ marker = body ++ (nl ++ nl ++ marker) from by
      simp, List.head?_append_of_ne_nil _ hne]
    exact hA hr
  have hlastm : (body ++ nl ++ nl ++ marker).getLast? = some ')' := by
    rw [show body ++ nl ++ nl ++ marker = (body ++ nl ++ nl) ++ marker from by
      simp, List.getLast?_append_of_ne_nil _ (by decide)]
    decide
  have hB2 : (body ++ nl ++ nl ++ marker).getLast? = some '\r' →
      nl ≠ ['\n'] := by
    intro hg
    rw [hlastm] at hg
    exact absurd hg (by decide)
  have e2 : replaceAll (pre ++ fence ++ tag ++ nl ++
      (body ++ nl ++ nl ++ marker) ++ nl ++ fence ++ post) =
      pre ++ fence ++ tag ++ nl ++ (body ++ nl ++ nl ++ marker) ++ nl ++ nl ++
        marker ++ nl ++ fence ++ post := by
    rw [splice hpre htag hnl hnl hb2 hne2 hA2 hB2, replaceAll_noTick hpost]
  refine ⟨?_, ?_⟩
  · rw [e1, show pre ++ fence ++ tag ++ nl ++ body ++ nl ++ nl ++ marker ++
      nl ++ fence ++ post = pre ++ fence ++ tag ++ nl ++
      (body ++ nl ++ nl ++ marker) ++ nl ++ fence ++ post from by simp, e2]
    simp
  · rw [e1, show pre ++ fence ++ tag ++ nl ++ body ++ nl ++ nl ++ marker ++
      nl ++ fence ++ post = pre ++ fence ++ tag ++ nl ++
      (body ++ nl ++ nl ++ marker) ++ nl ++ fence ++ post from by simp, e2]
    intro heq
    have hlen := congrArg List.length heq
    simp only [List.length_append] at hlen
    have hm : 0 < marker.length := by decide
    have hn : 0 < nl.length := by
      rcases hnl with h | h | h <;> subst h <;> decide
    omega

/-- C5 (witness): double augmentation of a concrete document. -/
theorem claim5_wit :
    replaceAll (replaceAll ("Doc\n".toList ++ fence ++ "rust".toList ++
        ['\n'] ++ "go()?;".toList ++ ['\n'] ++ fence ++ "\nEnd\n".toList)) =
      "Doc\n".toList ++ fence ++ "rust".toList ++ ['\n'] ++ "go()?;".toList ++
        ['\n'] ++ ['\n'] ++ marker ++ ['\n'] ++ ['\n'] ++ marker ++ ['\n'] ++
        fence ++ "\nEnd\n".toList ∧
    replaceAll (replaceAll ("Doc\n".toList ++ fence ++ "rust".toList ++
        ['\n'] ++ "go()?;".toList ++ ['\n'] ++ fence ++ "\nEnd\n".toList)) ≠
      replaceAll ("Doc\n".toList ++ fence ++ "rust".toList ++ ['\n'] ++
        "go()?;".toList ++ ['\n'] ++ fence ++ "\nEnd\n".toList) :=
  claim5_thm "Doc\n".toList "rust".toList ['\n'] "go()?;".toList
    "\nEnd\n".toList (by decide) (by decide) (by decide) (by decide)
    (by decide) (by decide) (by decide) (by decide)

/-- C6 (counterexample): the document consists of a single markdown block
tagged `text` (its body contains a rust fence line, which in markdown does
not close the block), yet the augmentation modifies the region the block
occupies, refuting the claim that blocks tagged with other languages are
byte-for-byte unchanged even when their bodies contain backtick lines. -/
theorem claim6_neg :
    replaceAll ("```text\nabc\n```rust\ndef\n```\n".toList) ≠
      "```text\nabc\n```rust\ndef\n```\n".toList ∧
    replaceAll ("```text\nabc\n```rust\ndef\n```\n".toList) =
      ("```text\nabc\n```rust\ndef\n\n" ++
        "# Ok::<(), Box<dyn std::error::Error>>(())\n```\n").toList := by
  constructor
  · decide
  · decide

/-- C6 (amended): a fenced block whose opening fence carries a language tag
other than the rust-family variants — or no tag at all — is byte-for-byte
unchanged by the augmentation, provided its body contains no backtick
characters; a body embedding a rust-tagged fence pattern can be matched
inside (see the counterexample). -/
theorem claim6_thm (pre tag nl1 body nl2 post : List Char) (hpre : noTick pre)
    (htagt : noTick tag) (hnl : noNL tag)
    (hne1 : tag.map Char.toLower ≠ tagRust)
    (hne2 : tag.map Char.toLower ≠ tagRs) (h1 : nlOk nl1) (h2 : nlOk nl2)
    (hb : noTick body) (hpost : noTick post) :
    replaceAll (pre ++ fence ++ tag ++ nl1 ++ body ++ nl2 ++ fence ++ post) =
      pre ++ fence ++ tag ++ nl1 ++ body ++ nl2 ++ fence ++ post := by
  have hopen : matchAt
      (fence ++ (tag ++ (nl1 ++ (body ++ nl2 ++ fence ++ post)))) = none := by
    have h0 := matchAt_open_badtag tag nl1 (body ++ nl2 ++ fence ++ post)
      hnl hne1 hne2 h1
    rw [show fence ++ tag ++ nl1 ++ (body ++ nl2 ++ fence ++ post) =
      fence ++ (tag ++ (nl1 ++ (body ++ nl2 ++ fence ++ post)))
      from by simp] at h0
    exact h0
  have hhead : ∀ c t, tag ++ (nl1 ++ (body ++ nl2 ++ fence ++ post)) =
      c :: t → c ≠ '`' := by
    intro c t hct hc
    subst hc
    cases tag with
    | cons x xs =>
      simp only [List.cons_append, List.cons.injEq] at hct
      exact htagt x (List.mem_cons_self _ _) hct.1
    | nil =>
      rw [List.nil_append] at hct
      rcases h1 with hh | hh | hh <;> subst hh <;>
        simp only [List.cons_append, List.cons.injEq] at hct <;>
        exact absurd hct.1 (by decide)
  rw [show pre ++ fence ++ tag ++ nl1 ++ body ++ nl2 ++ fence ++ post =
    pre ++ (fence ++ (tag ++ (nl1 ++ (body ++ nl2 ++ fence ++ post))))
    from by simp]
  rw [replaceAll_append_noTick hpre, replaceAll_fence_cons hopen hhead]
  rw [show tag ++ (nl1 ++ (body ++ nl2 ++ fence ++ post)) =
    (tag ++ nl1 ++ body ++ nl2) ++ (fence ++ post) from by simp]
  rw [replaceAll_append_noTick (noTick_append (noTick_append
    (noTick_append htagt (nlOk_noTick h1)) hb) (nlOk_noTick h2))]
  rw [replaceAll_fence_noTick hpost]

/-- C6 (witness): a concrete `text`-tagged block with a backtick-free body
passes through unchanged. -/
theorem claim6_wit :
    replaceAll ("Intro\n".toList ++ fence ++ "text".toList ++ ['\n'] ++
        "plain words\nmore".toList ++ ['\n'] ++ fence ++ "\nEnd\n".toList) =
      "Intro\n".toList ++ fence ++ "text".toList ++ ['\n'] ++
        "plain words\nmore".toList ++ ['\n'] ++ fence ++ "\nEnd\n".toList :=
  claim6_thm "Intro\n".toList "text".toList ['\n'] "plain words\nmore".toList
    ['\n'] "\nEnd\n".toList (by decide) (by decide) (by decide) (by decide)
    (by decide) (by decide) (by decide) (by decide) (by decide)

/-- C8 (confirmed): a fence pair with zero body lines — the opening fence
line immediately followed by the closing fence line — is not matched (the
body group requires at least one character), and the region it occupies is
byte-identical in the output. -/
theorem claim8_thm (pre tag nl post : List Char) (hpre : noTick pre)
    (htag : isTag tag) (hnl : nlOk nl) (hpost : noTick post) :
    replaceAll (pre ++ fence ++ tag ++ nl ++ fence ++ post) =
      pre ++ fence ++ tag ++ nl ++ fence ++ post := by
  have hopen : matchAt (fence ++ (tag ++ (nl ++ (fence ++ post)))) = none := by
    have h0 := matchAt_open_emptybody tag nl post htag hnl hpost
    rw [show fence ++ tag ++ nl ++ fence ++ post =
      fence ++ (tag ++ (nl ++ (fence ++ post))) from by simp] at h0
    exact h0
  have htagt : noTick tag := isTag_noTick htag
  have hhead : ∀ c t, tag ++ (nl ++ (fence ++ post)) = c :: t → c ≠ '`' := by
    intro c t hct hc
    subst hc
    cases tag with
    | cons x xs =>
      simp only [List.cons_append, List.cons.injEq] at hct
      exact htagt x (List.mem_cons_self _ _) hct.1
    | nil =>
      exfalso
      rcases htag with hk | hk <;> simp [tagRust, tagRs] at hk
  rw [show pre ++ fence ++ tag ++ nl ++ fence ++ post =
    pre ++ (fence ++ (tag ++ (nl ++ (fence ++ post)))) from by simp]
  rw [replaceAll_append_noTick hpre, replaceAll_fence_cons hopen hhead]
  rw [show tag ++ (nl ++ (fence ++ post)) = (tag ++ nl) ++ (fence ++ post)
    from by simp]
  rw [replaceAll_append_noTick (noTick_append htagt (nlOk_noTick hnl))]
  rw [replaceAll_fence_noTick hpost]

/-- C8 (witness): an empty-body rust block inside a concrete page. -/
theorem claim8_wit :
    replaceAll ("One\n".toList ++ fence ++ "rust".toList ++ ['\n'] ++ fence ++
        "\nTwo\n".toList) =
      "One\n".toList ++ fence ++ "rust".toList ++ ['\n'] ++ fence ++
        "\nTwo\n".toList :=
  claim8_thm "One\n".toList "rust".toList ['\n'] "\nTwo\n".toList (by decide)
    (by decide) (by decide) (by decide)

/-- C3 (counterexample): the opening backticks are preceded by `a` and the
closing backticks are followed by `c` on the same lines, so neither fence
is a whole line on its own, yet the matcher fires and the text is
modified, refuting the claim that such text is never treated as a fence. -/
theorem claim3_neg :
    replaceAll ("a```rust\nb\n```c".toList) ≠ "a```rust\nb\n```c".toList ∧
    replaceAll ("a```rust\nb\n```c".toList) =
      "a```rust\nb\n\n# Ok::<(), Box<dyn std::error::Error>>(())\n```c".toList
    := by
  constructor
  · decide
  · decide

/-- C3 (amended): the matcher requires exactly three backticks immediately
followed (no space) by the language tag and a line break to open, and a
line break immediately followed by three backticks to close, but imposes
no line anchoring: a block is matched even when the opening fence is
immediately preceded by a non-break character `a` and the closing fence is
immediately followed by a non-break character `c` on the same lines. -/
theorem claim3_thm (pre tag body post : List Char) (a c : Char)
    (hpre : noTick pre) (htag : isTag tag) (hb : noTick body)
    (hne : body ≠ []) (hlast : body.getLast? ≠ some '\r')
    (hpost : noTick post) (ha1 : a ≠ '`') (_ha2 : a ≠ '\r' ∧ a ≠ '\n')
    (hc1 : c ≠ '`') (_hc2 : c ≠ '\r' ∧ c ≠ '\n') :
    replaceAll ((pre ++ [a]) ++ fence ++ tag ++ ['\n'] ++ body ++ ['\n'] ++
        fence ++ (c :: post)) =
      (pre ++ [a]) ++ fence ++ tag ++ ['\n'] ++ body ++ ['\n'] ++
        (['\n'] ++ marker ++ ['\n']) ++ fence ++ (c :: post) := by
  have hpre2 : noTick (pre ++ [a]) := by
    intro d hd
    rcases List.mem_append.mp hd with h | h
    · exact hpre d h
    · rw [List.mem_singleton] at h
      rw [h]
      exact ha1
  have hpost2 : noTick (c :: post) := by
    intro d hd
    rcases List.mem_cons.mp hd with h | h
    · rw [h]; exact hc1
    · exact hpost d h
  rw [splice hpre2 htag (Or.inr (Or.inr rfl)) (Or.inr (Or.inr rfl)) hb hne
    (fun h => absurd h (by decide)) (fun hg => absurd hg hlast),
    replaceAll_noTick hpost2]
  simp

/-- C3 (witness): the amended statement at the concrete counterexample
input, with mid-line characters around both fences. -/
theorem claim3_wit :
    replaceAll (("".toList ++ ['a']) ++ fence ++ "rust".toList ++ ['\n'] ++
        "b".toList ++ ['\n'] ++ fence ++ ('c' :: "".toList)) =
      ("".toList ++ ['a']) ++ fence ++ "rust".toList ++ ['\n'] ++
        "b".toList ++ ['\n'] ++ (['\n'] ++ marker ++ ['\n']) ++ fence ++
        ('c' :: "".toList) :=
  claim3_thm "".toList "rust".toList "b".toList "".toList 'a' 'c' (by decide)
    (by decide) (by decide) (by decide) (by decide) (by decide) (by decide)
    (by decide) (by decide) (by decide)

set_option maxRecDepth 40000 in
/-- C1 (counterexample): on the spec's concrete scenario, the output is not
the claimed one: the claim allows only the marker line (with `\n` endings)
to be added before the closing fence and the URL replacements, but the
code also inserts a blank line before the marker. -/
theorem claim1_neg :
    docify ("Intro [link](https://docs.rs/crate/latest/crate/) here.\n" ++
        "```rust\nuse x;\nx::go();\n```\n" ++
        "End https://docs.rs/crate/latest/crate/ tail.\n").toList
      "https://docs.rs/crate/latest/crate/".toList "./".toList ≠
    ("Intro [link](./) here.\n" ++
      "```rust\nuse x;\nx::go();\n# Ok::<(), Box<dyn std::error::Error>>(())\n```\n" ++
      "End ./ tail.\n").toList := by
  decide

set_option maxRecDepth 40000 in
/-- C1 (amended): on the spec's concrete scenario, `docify` yields the
original document with a blank line and then the marker line inserted
before the closing fence (with `\n` endings) and every occurrence of the
target URL replaced by `./`, and no other characters changed. -/
theorem claim1_thm :
    docify ("Intro [link](https://docs.rs/crate/latest/crate/) here.\n" ++
        "```rust\nuse x;\nx::go();\n```\n" ++
        "End https://docs.rs/crate/latest/crate/ tail.\n").toList
      "https://docs.rs/crate/latest/crate/".toList "./".toList =
    ("Intro [link](./) here.\n" ++
      "```rust\nuse x;\nx::go();\n\n# Ok::<(), Box<dyn std::error::Error>>(())\n```\n" ++
      "End ./ tail.\n").toList := by
  decide

/-- C4 (counterexample): with document `aab`, target `ab` and replacement
`ba` — the replacement does not contain the target — one substitution
yields `aba` but a second yields `baa`: a fresh occurrence of the target
forms across the boundary between the preceding text and the replacement,
so the claimed side condition does not ensure idempotence. -/
theorem claim4_neg :
    occursIn "ab".toList "ba".toList = false ∧
    strReplace (strReplace "aab".toList "ab".toList "ba".toList)
        "ab".toList "ba".toList ≠
      strReplace "aab".toList "ab".toList "ba".toList := by
  constructor
  · decide
  · decide

theorem strReplace_id_of_no_occur {u t r : List Char} (ht : t ≠ [])
    (h : occursIn t u = false) : strReplace u t r = u := by
  induction u with
  | nil => exact strReplace_nil r ht
  | cons c cs ih =>
    have h2 : leadsWith t (c :: cs) = false ∧ occursIn t cs = false := by
      simpa [occursIn, Bool.or_eq_false_iff] using h
    rw [strReplace_neg ht h2.1, ih h2.2]

/-- C4 (amended): applying the substitution step twice yields the same
result as applying it once provided the once-substituted document contains
no occurrence of the target (for a non-empty target); the condition that
the replacement merely not contain the target is insufficient. -/
theorem claim4_thm (s t r : List Char) (ht : t ≠ [])
    (h : occursIn t (strReplace s t r) = false) :
    strReplace (strReplace s t r) t r = strReplace s t r :=
  strReplace_id_of_no_occur ht h

/-- C4 (witness): a link-rewrite request on a concrete document. -/
theorem claim4_wit :
    strReplace (strReplace "see https://docs.rs/x/ now".toList
        "https://docs.rs/x/".toList "./".toList)
      "https://docs.rs/x/".toList "./".toList =
      strReplace "see https://docs.rs/x/ now".toList
        "https://docs.rs/x/".toList "./".toList :=
  claim4_thm "see https://docs.rs/x/ now".toList "https://docs.rs/x/".toList
    "./".toList (by decide) (by decide)

/-- C9 (confirmed): the pattern checker accepts the fixed, hard-coded
pattern, so the construction-failure branch modelling the `expect` abort is
never taken: for every input, the checked pipeline returns the transformed
document. -/
theorem claim9_thm :
    ∀ doc target repl, docifyChecked doc target repl =
      some (docify doc target repl) := by
  intro doc target repl
  have h : buildOk = true := by decide
  simp [docifyChecked, h]

theorem emptyRep_eq (r u : List Char) :
    emptyRep r u = r ++ (u.map fun c => c :: r).flatten := by
  induction u with
  | nil => simp [emptyRep]
  | cons c cs ih => simp [emptyRep, ih]

/-- C10 (confirmed): with an empty target, the substitution step of
`docify` is not a no-op: the replacement is inserted at every character
boundary of the augmented document — before the first character, between
adjacent characters, and after the last one. -/
theorem claim10_thm (s r : List Char) (hr : r ≠ []) :
    docify s [] r = r ++ ((replaceAll s).map fun c => c :: r).flatten ∧
    docify s [] r ≠ replaceAll s := by
  have he : docify s [] r =
      r ++ ((replaceAll s).map fun c => c :: r).flatten :=
    emptyRep_eq r (replaceAll s)
  refine ⟨he, ?_⟩
  rw [he]
  intro heq
  have hlen := congrArg List.length heq
  have hsum : ∀ u : List Char,
      (u.map (List.length ∘ fun c => c :: r)).sum =
        u.length * (r.length + 1) := by
    intro u
    induction u with
    | nil => simp
    | cons c cs ih =>
      simp only [List.map_cons, List.sum_cons, ih, Function.comp_apply,
        List.length_cons]
      ring
  rw [List.length_append, List.length_flatten, List.map_map, hsum] at hlen
  have hx : 0 < r.length := List.length_pos.mpr hr
  have hy : (replaceAll s).length ≤
      (replaceAll s).length * (r.length + 1) := by
    simpa [Nat.succ_eq_add_one] using
      Nat.le_mul_of_pos_right (replaceAll s).length (Nat.succ_pos r.length)
  omega

/-- C10 (witness): empty target on a concrete document. -/
theorem claim10_wit :
    docify "ab".toList [] "-".toList =
      "-".toList ++ ((replaceAll "ab".toList).map
        fun c => c :: "-".toList).flatten ∧
    docify "ab".toList [] "-".toList ≠ replaceAll "ab".toList :=
  claim10_thm "ab".toList "-".toList (by decide)

end PrettyReadme
